import Mathlib

/-!
Verification of the named filter-pipeline engine (`FilterRegistry` in
`src/js/defaultTextFilters.js`) of the Patent Decision Document Converter.

The engine is shallowly embedded: the JavaScript values the engine
inspects are modelled by `JSVal`, a step call's possible outcomes
(immediate value, thenable/awaitable value, synchronous throw, rejection)
by `StepResult`, and the registry's public operations (`register`,
`insert`, `removeAt`, `enable`, `apply`, `applyList`) as pure functions
over an explicit registry state, returning `Except` for the JavaScript
`throw`s.  The step loop of `_runPipeline` is embedded twice, branch for
branch: `runSteps` computes the resulting string exactly as the loop
does, and `runInvoked` records the indices of the steps whose `fn` the
loop invokes, so that abort semantics ("no later step runs") can be
stated.
-/

namespace PatentFilters

/-- JavaScript values as far as the pipeline engine inspects them:
strings, `null` and `undefined`.  Step arguments and step results are
drawn from this type. -/
inductive JSVal where
  | str (s : String)
  | nullv
  | undef
deriving DecidableEq, Repr

/-- JavaScript `String(v)` on the modelled values: `String(null)` is
`"null"` and `String(undefined)` is `"undefined"`. -/
def jsString : JSVal → String
  | .str s => s
  | .nullv => "null"
  | .undef => "undefined"

/-- The synchronous-branch coercion `String(result ?? "")` of
`_runPipeline`: `null`/`undefined` become the empty string, any string
is kept. -/
def syncCoerce : JSVal → String
  | .str s => s
  | .nullv => ""
  | .undef => ""

/-- JavaScript whitespace for `String.prototype.trim` (the characters the
engine's inputs can realistically contain). -/
def jsWhitespaceChar (c : Char) : Bool :=
  c = ' ' || c = '\t' || c = '\n' || c = '\r' || c = '\x0b' || c = '\x0c' ||
  c = ' ' || c = '　'

/-- JavaScript `s.trim()`: strip leading and trailing whitespace. -/
def jsTrim (s : String) : String :=
  ⟨((s.data.dropWhile jsWhitespaceChar).reverse.dropWhile jsWhitespaceChar).reverse⟩

/-- What calling a step's `fn` can produce, as `_runPipeline` observes it:
a non-thenable value (`imm`), a thenable that resolves to a value
(`deferred`), a synchronous throw (`thrown`), or a thenable that rejects
(`rejected`).  Both failure forms land in the `catch` block of the loop. -/
inductive StepResult where
  | imm (v : JSVal)
  | deferred (v : JSVal)
  | thrown (e : String)
  | rejected (e : String)

/-- Whether a step outcome lands in the `catch` block of the loop. -/
def StepResult.fails : StepResult → Bool
  | .thrown _ => true
  | .rejected _ => true
  | .imm _ => false
  | .deferred _ => false

/-- A canonical step record as produced by `_normalizeToStep`:
`fn` receives the full JavaScript argument list, `args` is the optional
step-local argument array (`none` models an absent / non-array field),
`enabled` is the boolean flag. -/
structure FilterStep where
  fn : List JSVal → StepResult
  name : Option String := none
  args : Option (List JSVal) := none
  enabled : Bool := true

/-- One element of the step-like input accepted by normalization: a bare
function, an object (whose `fn` field is `some` exactly when it holds a
callable), or any other value (number, string, `null`, ...). -/
inductive StepLike where
  | fnOnly (f : List JSVal → StepResult)
  | record (fn : Option (List JSVal → StepResult)) (nm : Option String)
      (args : Option (List JSVal)) (enabled : Option Bool)
  | other

/-- The `fnList` parameter of `register` / `applyList`: a single step-like
value, an array of step-like values, or `null`/`undefined`. -/
inductive StepsLike where
  | single (s : StepLike)
  | list (l : List StepLike)
  | nullv

/-- The engine's thrown errors.  The JavaScript code throws plain `Error`s
with distinct messages; the spec names them, and we mirror that taxonomy
as constructors.  `stepError` carries whatever a step or hook threw. -/
inductive RegError where
  | invalidName
  | noFilterList
  | invalidStep
  | emptyPipeline
  | notFound (name : String)
  | indexOutOfRange (index : Int)
  | stepError (e : String)
deriving DecidableEq, Repr

/-- Resolved per-list options (`stopOnError`, `parallel`). -/
structure ListOptions where
  stopOnError : Bool
  parallel : Bool
deriving DecidableEq, Repr

/-- An options argument as passed by a caller: each field may be absent,
in which case the merged value falls back to the base (`Object.assign`). -/
structure OptionsArg where
  stopOnError : Option Bool := none
  parallel : Option Bool := none

/-- `Object.assign({}, base, arg || {})` on the two option fields. -/
def mergeOptions (base : ListOptions) (arg : Option OptionsArg) : ListOptions :=
  match arg with
  | none => base
  | some a =>
      { stopOnError := a.stopOnError.getD base.stopOnError
        parallel := a.parallel.getD base.parallel }

/-- Outcome of a `beforeApply` / `afterApply` hook call: normal return or
throw. -/
inductive HookOutcome where
  | ok
  | err (e : String)

/-- The hook set given to the constructor.  The `onError` hook is not
modelled: `_handleHookError` awaits it and swallows anything it throws,
so it can never influence the pipeline's state or result. -/
structure Hooks where
  beforeApply : Option (String → String → HookOutcome) := none
  afterApply : Option (String → String → HookOutcome) := none

/-- A stored pipeline entry: step list in execution order plus resolved
options. -/
structure ListEntry where
  steps : List FilterStep
  options : ListOptions

/-- The registry state: the name → entry map (in insertion order, as a
JavaScript `Map`), the hooks, and the resolved defaults. -/
structure FilterRegistry where
  map : List (String × ListEntry)
  hooks : Hooks
  defaults : ListOptions

/-- The constructor: defaults are
`Object.assign({stopOnError: true, parallel: false}, options.defaults || {})`. -/
def mkRegistry (hooks : Hooks := {}) (defaults : Option OptionsArg := none) :
    FilterRegistry :=
  { map := []
    hooks := hooks
    defaults := mergeOptions { stopOnError := true, parallel := false } defaults }

/-- `Map.get`. -/
def mapGet (m : List (String × ListEntry)) (k : String) : Option ListEntry :=
  (m.find? (fun p => p.1 = k)).map (·.2)

/-- `Map.set`: replace in place if the key exists, else append. -/
def mapSet (m : List (String × ListEntry)) (k : String) (v : ListEntry) :
    List (String × ListEntry) :=
  if m.any (fun p => p.1 = k) then
    m.map (fun p => if p.1 = k then (k, v) else p)
  else
    m ++ [(k, v)]

/-- `_normalizeToStep`: a bare function wraps to `{fn, enabled: true}`;
an object needs a callable `fn` (`InvalidStepError` otherwise), copies
`name`/`args`, and `enabled` is `false` only when explicitly `false`;
anything else is an `InvalidStepError`. -/
def normalizeToStep : StepLike → Except RegError FilterStep
  | .fnOnly f => .ok { fn := f, enabled := true }
  | .record fn nm args en =>
      match fn with
      | none => .error .invalidStep
      | some f =>
          .ok { fn := f
                name := nm
                args := args
                enabled := if en = some false then false else true }
  | .other => .error .invalidStep

/-- The `for (const item of src)` loop of `_normalizeToSteps`: normalize
each element in order, failing fast on the first bad one. -/
def normalizeList : List StepLike → Except RegError (List FilterStep)
  | [] => .ok []
  | s :: rest =>
      match normalizeToStep s with
      | .error e => .error e
      | .ok st =>
          match normalizeList rest with
          | .error e => .error e
          | .ok sts => .ok (st :: sts)

/-- `_normalizeToSteps`: `null` input throws; a non-array wraps into a
one-element array; each element is normalized in order, and an empty
result is an `EmptyPipelineError`. -/
def normalizeToSteps : StepsLike → Except RegError (List FilterStep)
  | .nullv => .error .noFilterList
  | .single s =>
      match normalizeList [s] with
      | .error e => .error e
      | .ok steps => if steps.isEmpty then .error .emptyPipeline else .ok steps
  | .list l =>
      match normalizeList l with
      | .error e => .error e
      | .ok steps => if steps.isEmpty then .error .emptyPipeline else .ok steps

/-- `register(name, fnList, options)`: `name` must be a string whose trim
is non-empty, the steps are normalized, options merge over the registry
defaults, and the entry replaces any existing one. -/
def register (reg : FilterRegistry) (name : JSVal) (fnList : StepsLike)
    (options : Option OptionsArg := none) : Except RegError FilterRegistry :=
  match name with
  | .str s =>
      if jsTrim s = "" then .error .invalidName
      else
        match normalizeToSteps fnList with
        | .error e => .error e
        | .ok steps =>
            .ok { reg with
                  map := mapSet reg.map s
                    { steps := steps
                      options := mergeOptions reg.defaults options } }
  | _ => .error .invalidName

/-- `insert(name, index, filter)`: normalize one step and splice it in at
`index` clamped into `[0, steps.length]`. -/
def insert (reg : FilterRegistry) (name : String) (index : Int)
    (filter : StepLike) : Except RegError FilterRegistry :=
  match mapGet reg.map name with
  | none => .error (.notFound name)
  | some entry =>
      match normalizeToStep filter with
      | .error e => .error e
      | .ok st =>
          let i : Int := max 0 (min index entry.steps.length)
          let steps :=
            entry.steps.take i.toNat ++ st :: entry.steps.drop i.toNat
          .ok { reg with map := mapSet reg.map name { entry with steps := steps } }

/-- `removeAt(name, index)`: bounds-checked `splice(index, 1)`. -/
def removeAt (reg : FilterRegistry) (name : String) (index : Int) :
    Except RegError FilterRegistry :=
  match mapGet reg.map name with
  | none => .error (.notFound name)
  | some entry =>
      if index < 0 || (entry.steps.length : Int) ≤ index then
        .error (.indexOutOfRange index)
      else
        .ok { reg with
              map := mapSet reg.map name
                { entry with steps := entry.steps.eraseIdx index.toNat } }

/-- `enable(name, index, enabled)`: bounds-checked in-place flip of the
`enabled` flag. -/
def enable (reg : FilterRegistry) (name : String) (index : Int)
    (enabled : Bool) : Except RegError FilterRegistry :=
  match mapGet reg.map name with
  | none => .error (.notFound name)
  | some entry =>
      if index < 0 || (entry.steps.length : Int) ≤ index then
        .error (.indexOutOfRange index)
      else
        match entry.steps.get? index.toNat with
        | none => .error (.indexOutOfRange index)
        | some st =>
            .ok { reg with
                  map := mapSet reg.map name
                    { entry with
                      steps := entry.steps.set index.toNat
                        { st with enabled := enabled } } }

/-- The argument list built for one step invocation:
`[current, ...step.args, ...invokeArgs]` (absent / non-array argument
fields contribute nothing). -/
def buildArgs (current : String) (stepArgs invokeArgs : Option (List JSVal)) :
    List JSVal :=
  JSVal.str current :: (stepArgs.getD [] ++ invokeArgs.getD [])

/-- The step loop of `_runPipeline`: walk the steps in order, skip
disabled ones, call `fn` on `[current, ...step.args, ...invokeArgs]`,
take `String(await result)` for a thenable and `String(result ?? "")`
otherwise as the next `current`; a throw or rejection is re-raised when
`stopOnError` holds and is otherwise swallowed, `current` staying
unchanged. -/
def runSteps (so : Bool) (inv : Option (List JSVal)) :
    List FilterStep → String → Except String String
  | [], current => .ok current
  | step :: rest, current =>
      if step.enabled then
        match step.fn (buildArgs current step.args inv) with
        | .imm v => runSteps so inv rest (syncCoerce v)
        | .deferred v => runSteps so inv rest (jsString v)
        | .thrown e => if so then .error e else runSteps so inv rest current
        | .rejected e => if so then .error e else runSteps so inv rest current
      else runSteps so inv rest current

/-- Instrumentation of the same loop, branch for branch: the indices
(counting from `i`) of the steps whose `fn` the loop invokes, in order. -/
def runInvoked (so : Bool) (inv : Option (List JSVal)) :
    List FilterStep → String → Nat → List Nat
  | [], _, _ => []
  | step :: rest, current, i =>
      if step.enabled then
        match step.fn (buildArgs current step.args inv) with
        | .imm v => i :: runInvoked so inv rest (syncCoerce v) (i + 1)
        | .deferred v => i :: runInvoked so inv rest (jsString v) (i + 1)
        | .thrown e =>
            if so then [i] else i :: runInvoked so inv rest current (i + 1)
        | .rejected e =>
            if so then [i] else i :: runInvoked so inv rest current (i + 1)
      else runInvoked so inv rest current (i + 1)

/-- A hook invocation under `stopOnError = so`: a throw from the hook is
re-raised when `so` holds, otherwise swallowed (after `onError`, which
cannot affect anything). -/
def hookRun (so : Bool) (h : Option (String → String → HookOutcome))
    (name s : String) : Except String Unit :=
  match h with
  | none => .ok ()
  | some f =>
      match f name s with
      | .ok => .ok ()
      | .err e => if so then .error e else .ok ()

/-- `_runPipeline`: `beforeApply`, the step loop, `afterApply`; the final
`current` is returned. -/
def runPipeline (hooks : Hooks) (name : String) (entry : ListEntry)
    (input : String) (inv : Option (List JSVal)) : Except String String :=
  let so := entry.options.stopOnError
  match hookRun so hooks.beforeApply name input with
  | .error e => .error e
  | .ok _ =>
      match runSteps so inv entry.steps input with
      | .error e => .error e
      | .ok current =>
          match hookRun so hooks.afterApply name current with
          | .error e => .error e
          | .ok _ => .ok current

/-- `String(str)` after the `str == null ? "" : ...` guard of
`apply` / `applyList`. -/
def coerceInput : JSVal → String
  | .str s => s
  | .nullv => ""
  | .undef => ""

/-- `apply(name, str, invokeArgs)`: unregistered names throw, otherwise
the stored entry runs on the coerced input. -/
def apply (reg : FilterRegistry) (name : String) (str : JSVal)
    (inv : Option (List JSVal) := none) : Except RegError String :=
  match mapGet reg.map name with
  | none => .error (.notFound name)
  | some entry =>
      (runPipeline reg.hooks name entry (coerceInput str) inv).mapError
        RegError.stepError

/-- The step indices an `apply` call invokes (empty when the name is
unregistered or `beforeApply` aborts the run before the loop). -/
def applyInvoked (reg : FilterRegistry) (name : String) (str : JSVal)
    (inv : Option (List JSVal) := none) : List Nat :=
  match mapGet reg.map name with
  | none => []
  | some entry =>
      match hookRun entry.options.stopOnError reg.hooks.beforeApply name
          (coerceInput str) with
      | .error _ => []
      | .ok _ =>
          runInvoked entry.options.stopOnError inv entry.steps
            (coerceInput str) 0

/-- `applyList(fnList, str, invokeArgs)`: the ad-hoc list is normalized
and run under the name `"<adhoc>"` with options
`Object.assign({}, defaults, {stopOnError: true})`. -/
def applyList (reg : FilterRegistry) (fnList : StepsLike) (str : JSVal)
    (inv : Option (List JSVal) := none) : Except RegError String :=
  match normalizeToSteps fnList with
  | .error e => .error e
  | .ok steps =>
      (runPipeline reg.hooks "<adhoc>"
        { steps := steps
          options := { stopOnError := true, parallel := reg.defaults.parallel } }
        (coerceInput str) inv).mapError RegError.stepError

/-- The left fold of the (string-coerced) step functions, exactly as §8 of
the spec words the order-preservation property.  On a non-failing step it
is the value the loop feeds forward; a failing step is treated as the
identity (the case the fold theorem excludes by hypothesis). -/
def stepFold (inv : Option (List JSVal)) (current : String)
    (step : FilterStep) : String :=
  match step.fn (buildArgs current step.args inv) with
  | .imm v => syncCoerce v
  | .deferred v => jsString v
  | .thrown _ => current
  | .rejected _ => current

/-! ## Helper lemmas -/

/-- With `stopOnError = false` the loop always produces a string. -/
theorem runSteps_false_ok (inv : Option (List JSVal)) :
    ∀ (steps : List FilterStep) (c : String),
      ∃ w, runSteps false inv steps c = .ok w := by
  intro steps
  induction steps with
  | nil => intro c; exact ⟨c, rfl⟩
  | cons s rest ih =>
      intro c
      simp only [runSteps]
      by_cases hs : s.enabled
      · rw [if_pos hs]
        cases hr : s.fn (buildArgs c s.args inv) with
        | imm v => exact ih _
        | deferred v => exact ih _
        | thrown e => exact ih c
        | rejected e => exact ih c
      · rw [if_neg hs]
        exact ih c

/-- Every invoked index lies in `[i, i + steps.length)`. -/
theorem runInvoked_bounds (so : Bool) (inv : Option (List JSVal)) :
    ∀ (steps : List FilterStep) (c : String) (i j : Nat),
      j ∈ runInvoked so inv steps c i → i ≤ j ∧ j < i + steps.length := by
  intro steps
  induction steps with
  | nil => intro c i j h; simp [runInvoked] at h
  | cons s rest ih =>
      intro c i j h
      simp only [runInvoked] at h
      simp only [List.length_cons]
      by_cases hs : s.enabled
      · rw [if_pos hs] at h
        cases hr : s.fn (buildArgs c s.args inv) with
        | imm v =>
            rw [hr] at h
            rcases List.mem_cons.mp h with h | h
            · omega
            · have := ih _ _ _ h
              omega
        | deferred v =>
            rw [hr] at h
            rcases List.mem_cons.mp h with h | h
            · omega
            · have := ih _ _ _ h
              omega
        | thrown e =>
            rw [hr] at h
            cases so with
            | true =>
                have h' : j ∈ [i] := h
                have := List.mem_singleton.mp h'
                omega
            | false =>
                have h' : j ∈ i :: runInvoked false inv rest c (i + 1) := h
                rcases List.mem_cons.mp h' with h' | h'
                · omega
                · have := ih _ _ _ h'
                  omega
        | rejected e =>
            rw [hr] at h
            cases so with
            | true =>
                have h' : j ∈ [i] := h
                have := List.mem_singleton.mp h'
                omega
            | false =>
                have h' : j ∈ i :: runInvoked false inv rest c (i + 1) := h
                rcases List.mem_cons.mp h' with h' | h'
                · omega
                · have := ih _ _ _ h'
                  omega
      · rw [if_neg hs] at h
        have := ih _ _ _ h
        omega

/-- Decomposition: a prefix that runs to `v` makes the run of
`pre ++ rest` continue as the run of `rest` from `v`. -/
theorem runSteps_append (so : Bool) (inv : Option (List JSVal)) :
    ∀ (pre : List FilterStep) (c v : String),
      runSteps so inv pre c = .ok v →
      ∀ rest, runSteps so inv (pre ++ rest) c = runSteps so inv rest v := by
  intro pre
  induction pre with
  | nil =>
      intro c v h rest
      simp only [runSteps] at h
      obtain rfl : c = v := by injection h
      rfl
  | cons s pre ih =>
      intro c v h rest
      simp only [runSteps, List.cons_append] at h ⊢
      by_cases hs : s.enabled
      · rw [if_pos hs] at h ⊢
        cases hr : s.fn (buildArgs c s.args inv) with
        | imm w => rw [hr] at h; exact ih _ _ h rest
        | deferred w => rw [hr] at h; exact ih _ _ h rest
        | thrown e =>
            rw [hr] at h
            cases so with
            | true => simp at h
            | false => exact ih _ _ h rest
        | rejected e =>
            rw [hr] at h
            cases so with
            | true => simp at h
            | false => exact ih _ _ h rest
      · rw [if_neg hs] at h ⊢
        exact ih _ _ h rest

/-- Decomposition of the invoked indices along a successful prefix. -/
theorem runInvoked_append (so : Bool) (inv : Option (List JSVal)) :
    ∀ (pre : List FilterStep) (c v : String),
      runSteps so inv pre c = .ok v →
      ∀ rest i, runInvoked so inv (pre ++ rest) c i =
        runInvoked so inv pre c i ++ runInvoked so inv rest v (i + pre.length) := by
  intro pre
  induction pre with
  | nil =>
      intro c v h rest i
      simp only [runSteps] at h
      obtain rfl : c = v := by injection h
      simp [runInvoked]
  | cons s pre ih =>
      intro c v h rest i
      have harith : i + 1 + pre.length = i + (pre.length + 1) := by omega
      simp only [runSteps] at h
      simp only [runInvoked, List.cons_append, List.length_cons]
      by_cases hs : s.enabled
      · rw [if_pos hs] at h
        rw [if_pos hs, if_pos hs]
        cases hr : s.fn (buildArgs c s.args inv) with
        | imm w =>
            rw [hr] at h
            show i :: runInvoked so inv (pre ++ rest) (syncCoerce w) (i + 1) =
              (i :: runInvoked so inv pre (syncCoerce w) (i + 1)) ++
                runInvoked so inv rest v (i + (pre.length + 1))
            rw [ih _ _ h rest (i + 1), ← harith]
            simp
        | deferred w =>
            rw [hr] at h
            show i :: runInvoked so inv (pre ++ rest) (jsString w) (i + 1) =
              (i :: runInvoked so inv pre (jsString w) (i + 1)) ++
                runInvoked so inv rest v (i + (pre.length + 1))
            rw [ih _ _ h rest (i + 1), ← harith]
            simp
        | thrown e =>
            rw [hr] at h
            cases so with
            | true => simp at h
            | false =>
                show i :: runInvoked false inv (pre ++ rest) c (i + 1) =
                  (i :: runInvoked false inv pre c (i + 1)) ++
                    runInvoked false inv rest v (i + (pre.length + 1))
                rw [ih _ _ h rest (i + 1), ← harith]
                simp
        | rejected e =>
            rw [hr] at h
            cases so with
            | true => simp at h
            | false =>
                show i :: runInvoked false inv (pre ++ rest) c (i + 1) =
                  (i :: runInvoked false inv pre c (i + 1)) ++
                    runInvoked false inv rest v (i + (pre.length + 1))
                rw [ih _ _ h rest (i + 1), ← harith]
                simp
      · rw [if_neg hs] at h
        rw [if_neg hs, if_neg hs]
        show runInvoked so inv (pre ++ rest) c (i + 1) =
          runInvoked so inv pre c (i + 1) ++
            runInvoked so inv rest v (i + (pre.length + 1))
        rw [ih _ _ h rest (i + 1), ← harith]

/-- Disabling the step at a valid index gives the same loop result as
removing it. -/
theorem runSteps_disable_eq_erase (so : Bool) (inv : Option (List JSVal)) :
    ∀ (steps : List FilterStep) (k : Nat) (st : FilterStep),
      steps.get? k = some st →
      ∀ c, runSteps so inv (steps.set k { st with enabled := false }) c =
        runSteps so inv (steps.eraseIdx k) c := by
  intro steps
  induction steps with
  | nil => intro k st h; simp at h
  | cons s rest ih =>
      intro k st h c
      cases k with
      | zero =>
          obtain rfl : s = st := by
            simpa using h
          show runSteps so inv ({ s with enabled := false } :: rest) c =
            runSteps so inv rest c
          simp only [runSteps]
          rw [if_neg (by simp)]
      | succ k =>
          have h' : rest.get? k = some st := by simpa using h
          show runSteps so inv (s :: rest.set k { st with enabled := false }) c =
            runSteps so inv (s :: rest.eraseIdx k) c
          simp only [runSteps]
          by_cases hs : s.enabled
          · rw [if_pos hs, if_pos hs]
            cases hr : s.fn (buildArgs c s.args inv) with
            | imm w => exact ih k st h' _
            | deferred w => exact ih k st h' _
            | thrown e =>
                cases so with
                | true => rfl
                | false => exact ih k st h' c
            | rejected e =>
                cases so with
                | true => rfl
                | false => exact ih k st h' c
          · rw [if_neg hs, if_neg hs]
            exact ih k st h' c

/-- A pipeline all of whose steps are enabled and never fail computes the
left fold of the step functions. -/
theorem runSteps_eq_foldl (so : Bool) (inv : Option (List JSVal)) :
    ∀ (steps : List FilterStep) (c : String),
      (∀ step ∈ steps, step.enabled = true ∧
        ∀ as, (step.fn as).fails = false) →
      runSteps so inv steps c = .ok (steps.foldl (stepFold inv) c) := by
  intro steps
  induction steps with
  | nil => intro c _; rfl
  | cons s rest ih =>
      intro c h
      have hhead := h s (List.mem_cons_self s rest)
      have htail : ∀ step ∈ rest, step.enabled = true ∧
          ∀ as, (step.fn as).fails = false :=
        fun st hst => h st (List.mem_cons_of_mem _ hst)
      simp only [runSteps, List.foldl_cons]
      rw [if_pos hhead.1]
      cases hr : s.fn (buildArgs c s.args inv) with
      | imm w =>
          rw [show stepFold inv c s = syncCoerce w from by
            simp [stepFold, hr]]
          exact ih _ htail
      | deferred w =>
          rw [show stepFold inv c s = jsString w from by
            simp [stepFold, hr]]
          exact ih _ htail
      | thrown e =>
          exfalso
          have := hhead.2 (buildArgs c s.args inv)
          rw [hr] at this
          simp [StepResult.fails] at this
      | rejected e =>
          exfalso
          have := hhead.2 (buildArgs c s.args inv)
          rw [hr] at this
          simp [StepResult.fails] at this

/-- `normalizeToStep` only ever fails with `InvalidStepError`. -/
theorem normalizeToStep_error_eq (s : StepLike) (e : RegError)
    (h : normalizeToStep s = .error e) : e = .invalidStep := by
  cases s with
  | fnOnly f => simp [normalizeToStep] at h
  | record fn nm args en =>
      cases fn with
      | none =>
          simp only [normalizeToStep] at h
          injection h with h
          exact h.symm
      | some f => simp [normalizeToStep] at h
  | other =>
      simp only [normalizeToStep] at h
      injection h with h
      exact h.symm

/-- `normalizeList` only ever fails with `InvalidStepError`. -/
theorem normalizeList_error_eq :
    ∀ (l : List StepLike) (e : RegError),
      normalizeList l = .error e → e = .invalidStep := by
  intro l
  induction l with
  | nil => intro e h; simp [normalizeList] at h
  | cons s rest ih =>
      intro e h
      simp only [normalizeList] at h
      cases hs : normalizeToStep s with
      | error e' =>
          rw [hs] at h
          injection h with h
          exact h ▸ normalizeToStep_error_eq s e' hs
      | ok st =>
          rw [hs] at h
          cases hrest : normalizeList rest with
          | error e' =>
              rw [hrest] at h
              injection h with h
              exact h ▸ ih e' hrest
          | ok sts =>
              rw [hrest] at h
              simp at h

/-- `normalizeToSteps` never fails with `InvalidNameError`. -/
theorem normalizeToSteps_ne_invalidName (fnList : StepsLike) :
    normalizeToSteps fnList ≠ .error .invalidName := by
  cases fnList with
  | nullv => simp [normalizeToSteps]
  | single s =>
      simp only [normalizeToSteps]
      cases hn : normalizeList [s] with
      | error e =>
          have := normalizeList_error_eq [s] e hn
          subst this
          simp
      | ok steps =>
          by_cases hst : steps.isEmpty
          · simp [hst]
          · simp [hst]
  | list l =>
      simp only [normalizeToSteps]
      cases hn : normalizeList l with
      | error e =>
          have := normalizeList_error_eq l e hn
          subst this
          simp
      | ok steps =>
          by_cases hst : steps.isEmpty
          · simp [hst]
          · simp [hst]

/-- `Map.set` followed by `Map.get` on the same key yields the new value. -/
theorem mapGet_mapSet_self :
    ∀ (m : List (String × ListEntry)) (k : String) (v : ListEntry),
      mapGet (mapSet m k v) k = some v := by
  intro m k v
  induction m with
  | nil => simp [mapSet, mapGet]
  | cons p m ih =>
      by_cases hp : p.1 = k
      · have hany : (p :: m).any (fun q => q.1 = k) = true := by
          simp [List.any_cons, hp]
        simp only [mapSet, hany, if_true, List.map_cons]
        simp [mapGet, List.find?, hp]
      · by_cases hany : m.any (fun q => q.1 = k) = true
        · have hany' : (p :: m).any (fun q => q.1 = k) = true := by
            simp only [List.any_cons, hany, Bool.or_true]
          simp only [mapSet, hany', if_true, List.map_cons, if_neg hp]
          have ih' : mapGet (m.map (fun q => if q.1 = k then (k, v) else q)) k =
              some v := by
            simpa [mapSet, hany] using ih
          simpa [mapGet, List.find?_cons, hp] using ih'
        · have hany' : ¬((p :: m).any (fun q => q.1 = k) = true) := by
            simp only [List.any_cons, Bool.or_eq_true, decide_eq_true_eq]
            push_neg
            refine ⟨hp, ?_⟩
            simpa using hany
          simp only [mapSet, if_neg hany', List.cons_append]
          have ih' : mapGet (m ++ [(k, v)]) k = some v := by
            simpa [mapSet, hany] using ih
          simpa [mapGet, List.find?_cons, hp] using ih'

/-- With `stopOnError = false` a hook can never abort the run. -/
theorem hookRun_false (h : Option (String → String → HookOutcome))
    (name s : String) : hookRun false h name s = .ok () := by
  cases h with
  | none => rfl
  | some f =>
      simp only [hookRun]
      cases f name s with
      | ok => rfl
      | err e => rfl

/-- Without hooks, `apply` is the step loop on the stored entry. -/
theorem apply_no_hooks (reg : FilterRegistry) (name : String)
    (entry : ListEntry) (str : JSVal) (inv : Option (List JSVal))
    (hb : reg.hooks.beforeApply = none) (ha : reg.hooks.afterApply = none)
    (hget : mapGet reg.map name = some entry) :
    apply reg name str inv =
      (runSteps entry.options.stopOnError inv entry.steps
        (coerceInput str)).mapError RegError.stepError := by
  simp only [apply]
  rw [hget]
  show (runPipeline reg.hooks name entry (coerceInput str) inv).mapError
    RegError.stepError = _
  simp only [runPipeline, hb, ha, hookRun]
  cases hr : runSteps entry.options.stopOnError inv entry.steps
      (coerceInput str) with
  | error e => rfl
  | ok w => rfl

/-- Without a `beforeApply` hook, the invoked indices of `apply` are the
invoked indices of the step loop. -/
theorem applyInvoked_no_before (reg : FilterRegistry) (name : String)
    (entry : ListEntry) (str : JSVal) (inv : Option (List JSVal))
    (hb : reg.hooks.beforeApply = none)
    (hget : mapGet reg.map name = some entry) :
    applyInvoked reg name str inv =
      runInvoked entry.options.stopOnError inv entry.steps
        (coerceInput str) 0 := by
  simp only [applyInvoked]
  rw [hget]
  show (match hookRun entry.options.stopOnError reg.hooks.beforeApply name
      (coerceInput str) with
    | .error _ => ([] : List Nat)
    | .ok _ =>
        runInvoked entry.options.stopOnError inv entry.steps
          (coerceInput str) 0) = _
  rw [hb]
  rfl

/-- With `stopOnError = false`, `apply` on a registered name always
produces a string, whatever the steps and hooks do. -/
theorem apply_stopOnError_false_ok (reg : FilterRegistry) (name : String)
    (entry : ListEntry) (str : JSVal) (inv : Option (List JSVal))
    (hget : mapGet reg.map name = some entry)
    (hso : entry.options.stopOnError = false) :
    ∃ w, apply reg name str inv = .ok w := by
  obtain ⟨w, hw⟩ := runSteps_false_ok inv entry.steps (coerceInput str)
  refine ⟨w, ?_⟩
  simp only [apply]
  rw [hget]
  show (runPipeline reg.hooks name entry (coerceInput str) inv).mapError
    RegError.stepError = _
  simp only [runPipeline, hso, hookRun_false]
  rw [hw]
  rfl

/-- Replacing a pipeline entry's steps with loop-equivalent steps leaves
`runPipeline` unchanged. -/
theorem runPipeline_congr_steps (hooks : Hooks) (name : String)
    (opts : ListOptions) (steps1 steps2 : List FilterStep) (input : String)
    (inv : Option (List JSVal))
    (h : ∀ c, runSteps opts.stopOnError inv steps1 c =
      runSteps opts.stopOnError inv steps2 c) :
    runPipeline hooks name { steps := steps1, options := opts } input inv =
      runPipeline hooks name { steps := steps2, options := opts } input inv := by
  simp only [runPipeline]
  rw [h input]

/-! ## Concrete fixtures for the witnesses -/

/-- A step function appending `"!"` to the current string. -/
def fnExcl : List JSVal → StepResult := fun as =>
  match as with
  | .str s :: _ => .imm (.str (s ++ "!"))
  | _ => .imm .nullv

/-- A step function appending `"?"` to the current string. -/
def fnQue : List JSVal → StepResult := fun as =>
  match as with
  | .str s :: _ => .imm (.str (s ++ "?"))
  | _ => .imm .nullv

/-- The identity step function. -/
def fnId : List JSVal → StepResult := fun as =>
  match as with
  | a :: _ => .imm a
  | [] => .imm .nullv

/-- A step function returning a thenable that resolves to `null`. -/
def fnAsyncNull : List JSVal → StepResult := fun _ => .deferred .nullv

/-- A step function that always throws. -/
def fnThrow : List JSVal → StepResult := fun _ => .thrown "boom"

/-- `fnExcl` never fails. -/
theorem fnExcl_ok : ∀ as, (fnExcl as).fails = false := by
  intro as
  cases as with
  | nil => rfl
  | cons a t => cases a <;> rfl

/-- `fnQue` never fails. -/
theorem fnQue_ok : ∀ as, (fnQue as).fails = false := by
  intro as
  cases as with
  | nil => rfl
  | cons a t => cases a <;> rfl

/-- A two-step registry fixture: `"!"` then `"?"`. -/
def regC1 : FilterRegistry :=
  match register mkRegistry (.str "p") (.list [.fnOnly fnExcl, .fnOnly fnQue])
      none with
  | .ok r => r
  | .error _ => mkRegistry

/-- The entry `regC1` stores under `"p"`. -/
def entryC1 : ListEntry :=
  match mapGet regC1.map "p" with
  | some e => e
  | none => { steps := [], options := { stopOnError := true, parallel := false } }

/-! ## The claims -/

/-- C1: for a registered pipeline whose steps are all enabled and none
failing, `apply` resolves to the left fold of the (string-coerced) step
functions over the input. -/
theorem apply_eq_foldl (reg : FilterRegistry) (name : String)
    (entry : ListEntry) (x : String) (inv : Option (List JSVal))
    (hb : reg.hooks.beforeApply = none) (ha : reg.hooks.afterApply = none)
    (hget : mapGet reg.map name = some entry)
    (hsteps : ∀ step ∈ entry.steps, step.enabled = true ∧
      ∀ as, (step.fn as).fails = false) :
    apply reg name (.str x) inv =
      .ok (entry.steps.foldl (stepFold inv) x) := by
  rw [apply_no_hooks reg name entry (.str x) inv hb ha hget]
  show (runSteps entry.options.stopOnError inv entry.steps x).mapError
    RegError.stepError = _
  rw [runSteps_eq_foldl entry.options.stopOnError inv entry.steps x hsteps]
  rfl

/-- C1 witness: the two-step fixture on input `"ab"`. -/
theorem apply_eq_foldl_witness :
    apply regC1 "p" (.str "ab") none = .ok "ab!?" := by
  have hsteps : entryC1.steps =
      [{ fn := fnExcl, enabled := true }, { fn := fnQue, enabled := true }] := rfl
  have h := apply_eq_foldl regC1 "p" entryC1 "ab" none rfl rfl rfl ?_
  · exact h.trans rfl
  · intro step hstep
    rw [hsteps] at hstep
    rcases List.mem_cons.mp hstep with rfl | hstep
    · exact ⟨rfl, fun as => fnExcl_ok as⟩
    · rcases List.mem_cons.mp hstep with rfl | hstep
      · exact ⟨rfl, fun as => fnQue_ok as⟩
      · simp at hstep

/-- C2: a step registered with per-step args `as` and called with shared
`invokeArgs` `bs` observes exactly the argument list
`[current, ...as, ...bs]`: the built list is literally that, and the
pipeline's behavior depends on the step's `fn` only through its value at
that list. -/
theorem step_arg_order (c : String) (as bs : List JSVal)
    (f g : List JSVal → StepResult) (nm : Option String) (en : Bool)
    (so : Bool) (rest : List FilterStep)
    (h : f (JSVal.str c :: (as ++ bs)) = g (JSVal.str c :: (as ++ bs))) :
    buildArgs c (some as) (some bs) = JSVal.str c :: (as ++ bs) ∧
    runSteps so (some bs)
        ({ fn := f, name := nm, args := some as, enabled := en } :: rest) c =
      runSteps so (some bs)
        ({ fn := g, name := nm, args := some as, enabled := en } :: rest) c := by
  refine ⟨rfl, ?_⟩
  cases en with
  | false => rfl
  | true =>
      simp only [runSteps, buildArgs, Option.getD_some]
      rw [h]

/-- C2 witness: a concrete step observing `[current, a, b]`. -/
theorem step_arg_order_witness :
    buildArgs "x" (some [JSVal.str "a"]) (some [JSVal.str "b"]) =
      [JSVal.str "x", JSVal.str "a", JSVal.str "b"] ∧
    runSteps true (some [JSVal.str "b"])
        ({ fn := fnId, name := none, args := some [JSVal.str "a"],
           enabled := true } :: []) "x" =
      runSteps true (some [JSVal.str "b"])
        ({ fn := fnId, name := none, args := some [JSVal.str "a"],
           enabled := true } :: []) "x" :=
  step_arg_order "x" [JSVal.str "a"] [JSVal.str "b"] fnId fnId none true true
    [] rfl

/-- A three-step abort fixture: `"!"`, a throwing step, then a spy. -/
def regC3 : FilterRegistry :=
  match register mkRegistry (.str "p")
      (.list [.fnOnly fnExcl, .fnOnly fnThrow, .fnOnly fnId]) none with
  | .ok r => r
  | .error _ => mkRegistry

/-- The entry `regC3` stores under `"p"`. -/
def entryC3 : ListEntry :=
  match mapGet regC3.map "p" with
  | some e => e
  | none => { steps := [], options := { stopOnError := true, parallel := false } }

/-- C3: with `stopOnError` resolved true, a step at index `k = pre.length`
that throws (or whose awaitable rejects) after the prefix ran to `v` makes
`apply` fail with that error, and no step at an index greater than `k` is
ever invoked. -/
theorem apply_abort_semantics (reg : FilterRegistry) (name : String)
    (entry : ListEntry) (pre post : List FilterStep) (bad : FilterStep)
    (x v e : String) (inv : Option (List JSVal))
    (hb : reg.hooks.beforeApply = none) (ha : reg.hooks.afterApply = none)
    (hget : mapGet reg.map name = some entry)
    (hso : entry.options.stopOnError = true)
    (hsteps : entry.steps = pre ++ bad :: post)
    (hpre : runSteps true inv pre x = .ok v)
    (hbaden : bad.enabled = true)
    (hbad : bad.fn (buildArgs v bad.args inv) = .thrown e ∨
      bad.fn (buildArgs v bad.args inv) = .rejected e) :
    apply reg name (.str x) inv = .error (.stepError e) ∧
    applyInvoked reg name (.str x) inv =
      runInvoked true inv pre x 0 ++ [pre.length] ∧
    ∀ j ∈ applyInvoked reg name (.str x) inv, j ≤ pre.length := by
  have hrun : runSteps true inv entry.steps x = .error e := by
    rw [hsteps, runSteps_append true inv pre x v hpre (bad :: post)]
    simp only [runSteps]
    rw [if_pos hbaden]
    rcases hbad with hbad | hbad <;> (rw [hbad]; try rfl)
  have hbadrun : runInvoked true inv (bad :: post) v pre.length =
      [pre.length] := by
    simp only [runInvoked]
    rw [if_pos hbaden]
    rcases hbad with hbad | hbad <;> (rw [hbad]; try rfl)
  have hinv : applyInvoked reg name (.str x) inv =
      runInvoked true inv pre x 0 ++ [pre.length] := by
    rw [applyInvoked_no_before reg name entry (.str x) inv hb hget]
    show runInvoked entry.options.stopOnError inv entry.steps x 0 = _
    rw [hso, hsteps, runInvoked_append true inv pre x v hpre (bad :: post) 0,
      Nat.zero_add, hbadrun]
  refine ⟨?_, hinv, ?_⟩
  · rw [apply_no_hooks reg name entry (.str x) inv hb ha hget]
    show (runSteps entry.options.stopOnError inv entry.steps x).mapError
      RegError.stepError = _
    rw [hso, hrun]
    rfl
  · intro j hj
    rw [hinv] at hj
    rcases List.mem_append.mp hj with hj | hj
    · have := runInvoked_bounds true inv pre x 0 j hj
      omega
    · have := List.mem_singleton.mp hj
      omega

/-- C3 witness: the abort fixture throws at index 1 and the spy at index 2
never runs (the invoked indices are `[0, 1]`). -/
theorem apply_abort_semantics_witness :
    apply regC3 "p" (.str "x") none = .error (.stepError "boom") ∧
    applyInvoked regC3 "p" (.str "x") none = [0, 1] := by
  have h := apply_abort_semantics regC3 "p" entryC3
    [{ fn := fnExcl, enabled := true }] [{ fn := fnId, enabled := true }]
    { fn := fnThrow, enabled := true } "x" "x!" "boom" none
    rfl rfl rfl rfl rfl rfl rfl (Or.inl rfl)
  exact ⟨h.1, h.2.1.trans rfl⟩

/-- A continue-on-error fixture: `"!"`, a throwing step, then `"?"`, with
`stopOnError: false`. -/
def regC4 : FilterRegistry :=
  match register mkRegistry (.str "p")
      (.list [.fnOnly fnExcl, .fnOnly fnThrow, .fnOnly fnQue])
      (some { stopOnError := some false, parallel := none }) with
  | .ok r => r
  | .error _ => mkRegistry

/-- The entry `regC4` stores under `"p"`. -/
def entryC4 : ListEntry :=
  match mapGet regC4.map "p" with
  | some e => e
  | none => { steps := [], options := { stopOnError := true, parallel := false } }

/-- C4: with `stopOnError` resolved false, a step at index `k = pre.length`
that throws after the prefix ran to `v` is skipped entirely: the run
continues with `post` (the steps after `k`) from the unchanged string `v`,
the failing step is invoked and then step `k + 1` onward proceed, and
`apply` ultimately returns a result, never a failure. -/
theorem apply_continue_semantics (reg : FilterRegistry) (name : String)
    (entry : ListEntry) (pre post : List FilterStep) (bad : FilterStep)
    (x v e : String) (inv : Option (List JSVal))
    (hget : mapGet reg.map name = some entry)
    (hso : entry.options.stopOnError = false)
    (hsteps : entry.steps = pre ++ bad :: post)
    (hpre : runSteps false inv pre x = .ok v)
    (hbaden : bad.enabled = true)
    (hbad : bad.fn (buildArgs v bad.args inv) = .thrown e ∨
      bad.fn (buildArgs v bad.args inv) = .rejected e) :
    runSteps false inv entry.steps x = runSteps false inv post v ∧
    runInvoked false inv entry.steps x 0 =
      runInvoked false inv pre x 0 ++
        pre.length :: runInvoked false inv post v (pre.length + 1) ∧
    ∃ w, apply reg name (.str x) inv = .ok w := by
  refine ⟨?_, ?_,
    apply_stopOnError_false_ok reg name entry (.str x) inv hget hso⟩
  · rw [hsteps, runSteps_append false inv pre x v hpre (bad :: post)]
    simp only [runSteps]
    rw [if_pos hbaden]
    rcases hbad with hbad | hbad <;> (rw [hbad]; try rfl)
  · rw [hsteps, runInvoked_append false inv pre x v hpre (bad :: post) 0,
      Nat.zero_add]
    congr 1
    simp only [runInvoked]
    rw [if_pos hbaden]
    rcases hbad with hbad | hbad <;> (rw [hbad]; try rfl)

/-- C4 witness: the continue fixture runs the step after the throwing one
on the pre-failure string and returns a result. -/
theorem apply_continue_semantics_witness :
    runSteps false none entryC4.steps "x" =
      runSteps false none [{ fn := fnQue, enabled := true }] "x!" ∧
    runInvoked false none entryC4.steps "x" 0 =
      runInvoked false none [{ fn := fnExcl, enabled := true }] "x" 0 ++
        1 :: runInvoked false none [{ fn := fnQue, enabled := true }] "x!" 2 ∧
    ∃ w, apply regC4 "p" (.str "x") none = .ok w :=
  apply_continue_semantics regC4 "p" entryC4
    [{ fn := fnExcl, enabled := true }] [{ fn := fnQue, enabled := true }]
    { fn := fnThrow, enabled := true } "x" "x!" "boom" none
    rfl rfl rfl rfl rfl (Or.inl rfl)

/-- A single-step fixture whose step resolves (as a thenable) to `null`. -/
def regC5 : FilterRegistry :=
  match register mkRegistry (.str "p") (.single (.fnOnly fnAsyncNull)) none with
  | .ok r => r
  | .error _ => mkRegistry

/-- C5 counterexample: a step returning an awaitable that resolves to
`null` yields the string `"null"`, not the empty string the claim's
uniform `null → ""` coercion would give. -/
theorem deferred_null_coerces_to_null_string :
    apply regC5 "p" (.str "x") none = .ok "null" ∧
    apply regC5 "p" (.str "x") none ≠ .ok "" := by
  refine ⟨rfl, ?_⟩
  intro hcon
  have h1 : (Except.ok "null" : Except RegError String) = .ok "" := hcon
  have h2 : ("null" : String) = "" := by injection h1
  exact absurd h2 (by decide)

/-- C5 amended: the next current string is the step result coerced as the
code does it: an immediate result goes through `String(result ?? "")`
(`null`/`undefined` → empty string), while an awaited result goes through
`String(await result)` directly (`null` → `"null"`,
`undefined` → `"undefined"`). -/
theorem step_result_coercion (so : Bool) (inv : Option (List JSVal))
    (step : FilterStep) (rest : List FilterStep) (c : String) (v : JSVal)
    (hen : step.enabled = true) :
    (step.fn (buildArgs c step.args inv) = .imm v →
      runSteps so inv (step :: rest) c = runSteps so inv rest (syncCoerce v)) ∧
    (step.fn (buildArgs c step.args inv) = .deferred v →
      runSteps so inv (step :: rest) c = runSteps so inv rest (jsString v)) ∧
    syncCoerce .nullv = "" ∧ syncCoerce .undef = "" ∧
    jsString .nullv = "null" ∧ jsString .undef = "undefined" := by
  refine ⟨?_, ?_, rfl, rfl, rfl, rfl⟩
  · intro h
    simp only [runSteps]
    rw [if_pos hen, h]
  · intro h
    simp only [runSteps]
    rw [if_pos hen, h]

/-- C5 amended witness: a deferred `null` feeds `"null"` forward. -/
theorem step_result_coercion_witness :
    runSteps true none [{ fn := fnAsyncNull, enabled := true }] "x" =
      .ok "null" := by
  have h := step_result_coercion true none
    { fn := fnAsyncNull, enabled := true } [] "x" JSVal.nullv rfl
  exact (h.2.1 rfl).trans rfl

/-- C6 counterexample: `" "` is a non-empty string, yet `register`
rejects it with `InvalidNameError` (the code trims before testing). -/
theorem register_rejects_space_name :
    register mkRegistry (.str " ") (.single (.fnOnly fnId)) none =
      .error .invalidName ∧
    (" " : String) ≠ "" :=
  ⟨rfl, by decide⟩

/-- C6 amended: `register` fails with `InvalidNameError` exactly when the
name is not a string or is a string whose trim is empty (empty or
whitespace-only); for every string name with non-empty trim, validation
passes and registration proceeds to step normalization. -/
theorem register_name_validation (reg : FilterRegistry) (name : JSVal)
    (fnList : StepsLike) (opts : Option OptionsArg) :
    (register reg name fnList opts = .error .invalidName ↔
      ∀ s, name = .str s → jsTrim s = "") ∧
    ∀ s, name = .str s → jsTrim s ≠ "" →
      register reg name fnList opts =
        (normalizeToSteps fnList).map (fun steps =>
          { reg with
            map := mapSet reg.map s
                { steps := steps
                  options := mergeOptions reg.defaults opts } }) := by
  constructor
  · constructor
    · intro h s hs
      subst hs
      by_contra hne
      simp only [register] at h
      rw [if_neg hne] at h
      cases hn : normalizeToSteps fnList with
      | error e =>
          rw [hn] at h
          have he : e = .invalidName := by injection h
          exact absurd (he ▸ hn) (normalizeToSteps_ne_invalidName fnList)
      | ok steps =>
          rw [hn] at h
          simp at h
    · intro hcond
      cases name with
      | str s =>
          have := hcond s rfl
          simp only [register]
          rw [if_pos this]
      | nullv => rfl
      | undef => rfl
  · intro s hs hne
    subst hs
    simp only [register]
    rw [if_neg hne]
    cases hn : normalizeToSteps fnList with
    | error e => rfl
    | ok steps => rfl

/-- C6 amended witness: `"p"` passes validation and registration reaches
normalization. -/
theorem register_name_validation_witness :
    register mkRegistry (.str "p") (.single (.fnOnly fnId)) none ≠
      .error .invalidName := by
  intro hcon
  have h := (register_name_validation mkRegistry (.str "p")
    (.single (.fnOnly fnId)) none).1.mp hcon "p" rfl
  exact absurd h (by decide)

/-- Any bad element makes the normalization loop fail with
`InvalidStepError`. -/
theorem normalizeList_mem_bad :
    ∀ (l : List StepLike) (s : StepLike), s ∈ l →
      normalizeToStep s = .error .invalidStep →
      normalizeList l = .error .invalidStep := by
  intro l
  induction l with
  | nil => intro s hmem _; simp at hmem
  | cons a rest ih =>
      intro s hmem hbad
      rcases List.mem_cons.mp hmem with rfl | hmem'
      · simp only [normalizeList, hbad]
      · cases ha : normalizeToStep a with
        | error e =>
            have he := normalizeToStep_error_eq a e ha
            subst he
            simp only [normalizeList, ha]
        | ok st =>
            simp only [normalizeList, ha, ih s hmem' hbad]

/-- C7: normalization fails with `InvalidStepError` on any element that is
neither a callable nor a record with a callable `fn` (also when such an
element sits anywhere in a list), fails with `EmptyPipelineError` on an
empty list, and wraps a bare callable as `{fn, enabled: true}`. -/
theorem normalize_step_contract :
    (∀ nm args en, normalizeToStep (.record none nm args en) =
      .error .invalidStep) ∧
    normalizeToStep .other = .error .invalidStep ∧
    normalizeToSteps (.list []) = .error .emptyPipeline ∧
    (∀ f, normalizeToStep (.fnOnly f) =
      .ok { fn := f, name := none, args := none, enabled := true }) ∧
    (∀ l s, s ∈ l → normalizeToStep s = .error .invalidStep →
      normalizeToSteps (.list l) = .error .invalidStep) := by
  refine ⟨fun nm args en => rfl, rfl, rfl, fun f => rfl, ?_⟩
  intro l s hmem hbad
  simp only [normalizeToSteps, normalizeList_mem_bad l s hmem hbad]

/-- C7 witness: a list holding one non-callable fails with
`InvalidStepError`. -/
theorem normalize_step_contract_witness :
    normalizeToSteps (.list [.other]) = .error .invalidStep :=
  normalize_step_contract.2.2.2.2 [.other] .other (by simp) rfl

/-- C8: once `removeAt` has emptied a registered pipeline, `apply` still
succeeds and returns the input unchanged. -/
theorem removeAt_to_empty_apply_identity (reg : FilterRegistry)
    (name : String) (entry : ListEntry) (st : FilterStep)
    (reg' : FilterRegistry) (x : String) (inv : Option (List JSVal))
    (hb : reg.hooks.beforeApply = none) (ha : reg.hooks.afterApply = none)
    (hget : mapGet reg.map name = some entry)
    (hone : entry.steps = [st])
    (hrm : removeAt reg name 0 = .ok reg') :
    apply reg' name (.str x) inv = .ok x := by
  have hrm' : reg' =
      { reg with map := mapSet reg.map name { entry with steps := [] } } := by
    simp only [removeAt, hone] at hrm
    rw [hget] at hrm
    simp only [hone] at hrm
    norm_num at hrm
    exact hrm.symm
  subst hrm'
  have hget' : mapGet (mapSet reg.map name { entry with steps := [] }) name =
      some { entry with steps := [] } :=
    mapGet_mapSet_self reg.map name _
  rw [apply_no_hooks
    { reg with map := mapSet reg.map name { entry with steps := [] } }
    name { entry with steps := [] } (.str x) inv hb ha hget']
  rfl

/-- A one-step fixture for emptying via `removeAt`. -/
def regC8 : FilterRegistry :=
  match register mkRegistry (.str "p") (.single (.fnOnly fnId)) none with
  | .ok r => r
  | .error _ => mkRegistry

/-- The entry `regC8` stores under `"p"`. -/
def entryC8 : ListEntry :=
  match mapGet regC8.map "p" with
  | some e => e
  | none => { steps := [], options := { stopOnError := true, parallel := false } }

/-- `regC8` after `removeAt("p", 0)` emptied its only pipeline. -/
def regC8empty : FilterRegistry :=
  match removeAt regC8 "p" 0 with
  | .ok r => r
  | .error _ => regC8

/-- C8 witness: the emptied fixture returns its input unchanged. -/
theorem removeAt_to_empty_apply_identity_witness :
    apply regC8empty "p" (.str "hello") none = .ok "hello" :=
  removeAt_to_empty_apply_identity regC8 "p" entryC8
    { fn := fnId, enabled := true } regC8empty "hello" none
    rfl rfl rfl rfl rfl

/-- C9: after `enable(name, i, false)`, `apply` behaves exactly as on the
same pipeline with step `i` removed (same options, hooks and arguments). -/
theorem enable_false_eq_removed (reg : FilterRegistry) (name : String)
    (entry : ListEntry) (i : Nat) (st : FilterStep) (reg' : FilterRegistry)
    (str : JSVal) (inv : Option (List JSVal))
    (hget : mapGet reg.map name = some entry)
    (hstep : entry.steps.get? i = some st)
    (hen : enable reg name (i : Int) false = .ok reg') :
    apply reg' name str inv =
      apply { reg with
              map := mapSet reg.map name
                { entry with steps := entry.steps.eraseIdx i } } name str inv := by
  have hlen : i < entry.steps.length := by
    by_contra hge
    rw [List.get?_eq_none.mpr (by omega)] at hstep
    simp at hstep
  have hen' : reg' =
      { reg with
        map := mapSet reg.map name
          { entry with
            steps := entry.steps.set i { st with enabled := false } } } := by
    simp only [enable, hget] at hen
    have hcond : ¬((decide ((i : Int) < 0) ||
        decide ((entry.steps.length : Int) ≤ (i : Int))) = true) := by
      simp only [Bool.or_eq_true, decide_eq_true_eq]
      push_neg
      omega
    rw [if_neg hcond] at hen
    rw [show ((i : Int)).toNat = i from Int.toNat_natCast i] at hen
    simp only [hstep] at hen
    exact (Except.ok.inj hen).symm
  subst hen'
  have hpipe : runPipeline reg.hooks name
      { entry with steps := entry.steps.set i { st with enabled := false } }
      (coerceInput str) inv =
      runPipeline reg.hooks name
        { entry with steps := entry.steps.eraseIdx i }
        (coerceInput str) inv :=
    runPipeline_congr_steps reg.hooks name entry.options
      (entry.steps.set i { st with enabled := false })
      (entry.steps.eraseIdx i) (coerceInput str) inv
      (fun c =>
        runSteps_disable_eq_erase entry.options.stopOnError inv entry.steps
          i st hstep c)
  simp only [apply]
  rw [mapGet_mapSet_self reg.map name
      { entry with steps := entry.steps.set i { st with enabled := false } },
    mapGet_mapSet_self reg.map name
      { entry with steps := entry.steps.eraseIdx i }]
  show (runPipeline reg.hooks name
      { entry with steps := entry.steps.set i { st with enabled := false } }
      (coerceInput str) inv).mapError RegError.stepError =
    (runPipeline reg.hooks name
      { entry with steps := entry.steps.eraseIdx i }
      (coerceInput str) inv).mapError RegError.stepError
  rw [hpipe]

/-- The two-step fixture with step 0 disabled via `enable`. -/
def regC9disabled : FilterRegistry :=
  match enable regC1 "p" 0 false with
  | .ok r => r
  | .error _ => regC1

/-- C9 witness: disabling step 0 of the two-step fixture equals removing
it. -/
theorem enable_false_eq_removed_witness :
    apply regC9disabled "p" (.str "ab") none =
      apply { regC1 with
              map := mapSet regC1.map "p"
                { entryC1 with steps := entryC1.steps.eraseIdx 0 } } "p"
        (.str "ab") none :=
  enable_false_eq_removed regC1 "p" entryC1 0
    { fn := fnExcl, enabled := true } regC9disabled (.str "ab") none
    rfl rfl rfl

/-- C10: `applyList` always runs with `stopOnError: true`, overriding the
registry default: even when the registry was constructed with
`defaults.stopOnError = false`, a throwing ad-hoc step at index
`pre.length` makes `applyList` fail with that error. -/
theorem applyList_stopOnError_override (reg : FilterRegistry)
    (fnList : StepsLike) (pre post : List FilterStep) (bad : FilterStep)
    (x v e : String) (inv : Option (List JSVal))
    (hb : reg.hooks.beforeApply = none)
    (hdef : reg.defaults.stopOnError = false)
    (hnorm : normalizeToSteps fnList = .ok (pre ++ bad :: post))
    (hpre : runSteps true inv pre x = .ok v)
    (hbaden : bad.enabled = true)
    (hbad : bad.fn (buildArgs v bad.args inv) = .thrown e ∨
      bad.fn (buildArgs v bad.args inv) = .rejected e) :
    applyList reg fnList (.str x) inv = .error (.stepError e) := by
  have hrun : runSteps true inv (pre ++ bad :: post) x = .error e := by
    rw [runSteps_append true inv pre x v hpre (bad :: post)]
    simp only [runSteps]
    rw [if_pos hbaden]
    rcases hbad with hbad | hbad <;> (rw [hbad]; try rfl)
  simp only [applyList]
  rw [hnorm]
  show (runPipeline reg.hooks "<adhoc>"
      { steps := pre ++ bad :: post
        options := { stopOnError := true, parallel := reg.defaults.parallel } }
      x inv).mapError RegError.stepError = _
  simp only [runPipeline, hb, hookRun]
  rw [hrun]
  rfl

/-- A registry constructed with `defaults.stopOnError: false`. -/
def regC10 : FilterRegistry :=
  mkRegistry {} (some { stopOnError := some false, parallel := none })

/-- C10 witness: on the continue-by-default registry, an ad-hoc list with
a throwing first step still fails. -/
theorem applyList_stopOnError_override_witness :
    applyList regC10 (.list [.fnOnly fnThrow, .fnOnly fnId]) (.str "x")
      none = .error (.stepError "boom") :=
  applyList_stopOnError_override regC10
    (.list [.fnOnly fnThrow, .fnOnly fnId])
    [] [{ fn := fnId, enabled := true }] { fn := fnThrow, enabled := true }
    "x" "x" "boom" none rfl rfl rfl rfl rfl (Or.inl rfl)

end PatentFilters
